import Mathlib

/-!
Shallow embedding of the APSA symptom-triage engine
(source: src/services/apsaEngine.ts, types in src/types.ts).

Modelling conventions:
- JS strings are lists of code points (Nat).  All engine inputs are ASCII, so
  toLowerCase / trim are modelled on the ASCII range.
- JS numbers are idealized as exact rationals: raw scores are integers, the
  0.001 shift constant is 1/1000, probabilities live in the rational field.
- The ECMAScript sort with comparator (a,b) => b.score - a.score is required
  by the language standard to be stable; for a total preorder any stable sort
  produces the same list, so it is modelled by insertion sort with the
  relation "b.score is at most a.score".
- Methods that only read the engine state are modelled in state-passing style,
  returning the (unchanged) state next to their result.
-/

namespace APSA

set_option maxRecDepth 1000000

/-- JS strings as lists of code points. -/
abbrev Str := List Nat

/-- Code points of a Lean string literal, used for concrete inputs. -/
def strOf (s : String) : Str := s.data.map Char.toNat

/-- ASCII uppercase letter test (codes 65..90). -/
def isUpperCode (c : Nat) : Bool := 65 ≤ c && c ≤ 90

/-- One code point of String.prototype.toLowerCase on the ASCII range. -/
def lowerCode (c : Nat) : Nat := if isUpperCode c then c + 32 else c

/-- String.prototype.toLowerCase on the ASCII range. -/
def toLowerStr (s : Str) : Str := s.map lowerCode

/-- Whitespace removed by String.prototype.trim (ASCII part). -/
def isSpaceCode (c : Nat) : Bool :=
  c == 32 || c == 9 || c == 10 || c == 13 || c == 11 || c == 12

/-- String.prototype.trim on the ASCII range. -/
def trimStr (s : Str) : Str :=
  ((s.dropWhile isSpaceCode).reverse.dropWhile isSpaceCode).reverse

/-- String.prototype.split with a character-class of delimiter code points;
    empty chunks are kept, as in JS. -/
def splitStr (delims : List Nat) : Str → List Str
  | [] => [[]]
  | c :: rest =>
    let r := splitStr delims rest
    if c ∈ delims then [] :: r
    else
      match r with
      | [] => [[c]]
      | chunk :: rs => (c :: chunk) :: rs

/-- Auxiliary for substring containment: the needle is a leading segment of
    the haystack. -/
def leadsStr : Str → Str → Bool
  | [], _ => true
  | _ :: _, [] => false
  | c :: cs, d :: ds => c == d && leadsStr cs ds

/-- JS hay.includes(needle): substring containment. -/
def hasSubstr : Str → Str → Bool
  | [], needle => leadsStr needle []
  | c :: t, needle => leadsStr needle (c :: t) || hasSubstr t needle

/-- Presence value of one evidence record (types.ts, APSASymptomEvidence). -/
inductive Presence where
  | present
  | absent
  | uncertain
deriving DecidableEq

/-- One evidence record (types.ts, APSASymptomEvidence; the optional
    qualifier and confidence fields are never touched by the engine). -/
structure Evidence where
  name : Str
  presence : Presence
  sourceMessageIndex : Nat
deriving DecidableEq

/-- One scored hypothesis (types.ts, APSAHypothesis). -/
structure Hypothesis where
  condition : Str
  probability : ℚ
  supporting : List Str
  contradicting : List Str
deriving DecidableEq

/-- One planned question (types.ts, APSAQuestionPlan); expectedSplits is the
    JS object built by Object.fromEntries, kept as an association list. -/
structure QuestionPlan where
  question : Str
  targetSymptom : Str
  rationale : Str
  expectedSplits : List (Str × ℚ)
deriving DecidableEq

/-- The engine state (types.ts, APSAStateSnapshot; the optional
    terminationReason is never written by the engine). -/
structure EngineState where
  cycle : Nat
  hypotheses : List Hypothesis
  askedQuestions : List QuestionPlan
  evidence : List Evidence
  terminated : Bool
deriving DecidableEq

/-- Initial state of a fresh engine (apsaEngine.ts, field initializer). -/
def initState : EngineState :=
  { cycle := 0, hypotheses := [], askedQuestions := [], evidence := [], terminated := false }

/-- The knowledge base: condition name to symptom-token set, as an association
    list in JS object-key insertion order; each token list is in Set insertion
    order. -/
abbrev Knowledge := List (Str × List Str)

/-- Loop body of the constructor's token collection: trim, lowercase, keep
    when longer than 2 code points, add to the Set if not already a member. -/
def tokenStep (acc : List Str) (chunk : Str) : List Str :=
  if 2 < (toLowerStr (trimStr chunk)).length then
    (if toLowerStr (trimStr chunk) ∈ acc then acc else acc ++ [toLowerStr (trimStr chunk)])
  else acc

/-- Token set of one dataset row (constructor): split the symptom text on
    codes 46, 59, 10 (period, semicolon, newline), trim, lowercase, keep
    tokens of length greater than 2, and collect into a Set (first-occurrence
    order, no duplicates). -/
def tokensOfSymptoms (symptoms : Str) : List Str :=
  (splitStr [46, 59, 10] symptoms).foldl tokenStep []

/-- JS object key assignment: an existing key keeps its position and gets the
    new value, a new key is appended. -/
def recordSet (kb : Knowledge) (key : Str) (v : List Str) : Knowledge :=
  if kb.any (fun p => p.1 == key) then
    kb.map (fun p => if p.1 == key then (p.1, v) else p)
  else kb ++ [(key, v)]

/-- The constructor: build the knowledge base from dataset rows
    (disease name, symptoms text); duplicate disease names overwrite. -/
def buildKnowledge (rows : List (Str × Str)) : Knowledge :=
  rows.foldl (fun kb row => recordSet kb row.1 (tokensOfSymptoms row.2)) []

/-- Reading a key of the knowledge object; a missing key yields the empty
    token set. -/
def kbLookup (kb : Knowledge) (c : Str) : List Str :=
  ((kb.find? (fun p => p.1 == c)).map Prod.snd).getD []

/-- One entry of the scores array built by regenerateHypotheses. -/
structure ScoreRec where
  condition : Str
  score : Int
  supporting : List Str
  contradicting : List Str
deriving DecidableEq

/-- Innermost loop of the scorer: one evidence record against one condition
    token (apsaEngine.ts lines 62-67). -/
def stepToken (ev : Evidence) (acc : Int × List Str × List Str) (token : Str) :
    Int × List Str × List Str :=
  if hasSubstr token ev.name then
    match ev.presence with
    | .present => (acc.1 + 2, acc.2.1 ++ [ev.name], acc.2.2)
    | .absent => (acc.1 - 2, acc.2.1, acc.2.2 ++ [ev.name])
    | .uncertain => acc
  else acc

/-- Middle loop of the scorer: one evidence record against all tokens of one
    condition. -/
def evStep (toks : List Str) (acc : Int × List Str × List Str) (ev : Evidence) :
    Int × List Str × List Str :=
  toks.foldl (stepToken ev) acc

/-- Raw score, supporting list and contradicting list of one condition
    (apsaEngine.ts lines 60-68). -/
def condScore (toks : List Str) (evidence : List Evidence) :
    Int × List Str × List Str :=
  evidence.foldl (evStep toks) (0, [], [])

/-- Score contribution of one evidence record against one token, used to
    state additivity of the scoring fold. -/
def stepDelta (ev : Evidence) (t : Str) : Int :=
  if hasSubstr t ev.name then
    match ev.presence with
    | .present => 2
    | .absent => -2
    | .uncertain => 0
  else 0

/-- The scores array: conditions with at least one supporting match, in
    knowledge-base order (apsaEngine.ts lines 58-70). -/
def rawScores (kb : Knowledge) (evidence : List Evidence) : List ScoreRec :=
  kb.filterMap (fun p =>
    if (condScore p.2 evidence).2.1 ≠ [] then
      some
        { condition := p.1
          score := (condScore p.2 evidence).1
          supporting := (condScore p.2 evidence).2.1
          contradicting := (condScore p.2 evidence).2.2 }
    else none)

/-- Total preorder used by the sort comparator (a,b) => b.score - a.score. -/
def scoreGe (a b : ScoreRec) : Prop := b.score ≤ a.score

instance : DecidableRel scoreGe := fun a b => inferInstanceAs (Decidable (b.score ≤ a.score))

/-- The stable descending sort of the scores array. -/
def sortScores (l : List ScoreRec) : List ScoreRec := l.insertionSort scoreGe

/-- The top-6 slice of the sorted scores (apsaEngine.ts lines 72-73). -/
def rawTop (kb : Knowledge) (evidence : List Evidence) : List ScoreRec :=
  (sortScores (rawScores kb evidence)).take 6

/-- Math.min over the retained scores and 0 (apsaEngine.ts line 74); Math.min
    of several arguments is their minimum, computed here as a left fold. -/
def shiftBase (kb : Knowledge) (evidence : List Evidence) : Int :=
  ((rawTop kb evidence).map ScoreRec.score).foldl min 0

/-- The shifted scores (apsaEngine.ts line 75): each retained record paired
    with its score minus the shift base plus 0.001. -/
def shiftedScores (kb : Knowledge) (evidence : List Evidence) :
    List (ScoreRec × ℚ) :=
  (rawTop kb evidence).map
    (fun t => (t, (t.score : ℚ) - (shiftBase kb evidence : ℚ) + 1 / 1000))

/-- The normalizing total (apsaEngine.ts line 76): the left-fold sum of the
    shifted scores, replaced by 1 when it is 0 (the JS or-with-1 guard). -/
def totalShifted (kb : Knowledge) (evidence : List Evidence) : ℚ :=
  let t := ((shiftedScores kb evidence).map Prod.snd).foldl (· + ·) 0
  if t = 0 then 1 else t

/-- The private regenerateHypotheses method (apsaEngine.ts lines 56-78). -/
def regenerateHypotheses (kb : Knowledge) (st : EngineState) : EngineState :=
  { st with
    hypotheses :=
      (shiftedScores kb st.evidence).map (fun ts =>
        { condition := ts.1.condition
          probability := ts.2 / totalShifted kb st.evidence
          supporting := ts.1.supporting
          contradicting := ts.1.contradicting }) }

/-- The literal alternatives of the free-text extractor regex
    (apsaEngine.ts line 36). -/
def extractorKeywords : List Str :=
  [strOf "pain", strOf "ache", strOf "fever", strOf "cough", strOf "dizz",
   strOf "nausea", strOf "vomit", strOf "headache", strOf "fatigue",
   strOf "tired", strOf "sore", strOf "throat", strOf "rash", strOf "itch",
   strOf "swelling", strOf "cramp", strOf "diarrhea", strOf "constipation",
   strOf "shortness of breath", strOf "chest tight", strOf "palpitation"]

/-- A regex that is a plain alternation of literals tests true on a string iff
    some literal occurs in it as a substring. -/
def matchesKeywords (ks : List Str) (c : Str) : Bool :=
  ks.any (fun k => hasSubstr c k)

/-- Loop body of addUserFreeText (apsaEngine.ts lines 37-41): push a present
    record for a keyword-matching phrase whose name is not already among the
    evidence seen so far (including pushes made earlier in the same call). -/
def freeTextStep (messageIndex : Nat) (acc : List Evidence) (c : Str) : List Evidence :=
  if matchesKeywords extractorKeywords c && !(acc.any (fun e => e.name == c)) then
    acc ++ [{ name := c, presence := .present, sourceMessageIndex := messageIndex }]
  else acc

/-- The addUserFreeText method, assembled from the pieces above
    (apsaEngine.ts lines 33-43). -/
def addUserFreeText (kb : Knowledge) (st : EngineState) (text : Str)
    (messageIndex : Nat) : EngineState :=
  let candidates :=
    ((splitStr [44, 59, 10] (toLowerStr text)).map trimStr).filter (fun t => t ≠ [])
  regenerateHypotheses kb
    { st with evidence := candidates.foldl (freeTextStep messageIndex) st.evidence }

/-- Overwrite the presence of the first record with the given name; JS find
    returns the first match and the assignment mutates that record. -/
def updateFirst (name : Str) (presence : Presence) : List Evidence → List Evidence
  | [] => []
  | e :: es =>
    if e.name == name then { e with presence := presence } :: es
    else e :: updateFirst name presence es

/-- The answerQuestion method (apsaEngine.ts lines 45-54). -/
def answerQuestion (kb : Knowledge) (st : EngineState) (symptom : Str)
    (presence : Presence) (messageIndex : Nat) : EngineState :=
  let ev :=
    if st.evidence.any (fun e => e.name == symptom) then
      updateFirst symptom presence st.evidence
    else
      st.evidence ++ [{ name := symptom, presence := presence, sourceMessageIndex := messageIndex }]
  regenerateHypotheses kb { st with evidence := ev }

/-- The literal alternatives of the planner candidate regex
    (apsaEngine.ts line 92); note it differs from the extractor regex. -/
def plannerKeywords : List Str :=
  [strOf "pain", strOf "fever", strOf "cough", strOf "headache", strOf "dizz",
   strOf "nausea", strOf "vomit", strOf "rash", strOf "swelling",
   strOf "diarrhea", strOf "shortness of breath", strOf "chest"]

/-- Keys of the symptomFreq object in first-seen insertion order
    (apsaEngine.ts lines 83-89).  The planner only ever reads
    Object.keys(symptomFreq); the count and inConditions values it stores are
    write-only in the source, so only the key order is modelled. -/
def freqKeys (kb : Knowledge) (hyps : List Hypothesis) : List Str :=
  hyps.foldl
    (fun ks h =>
      (kbLookup kb h.condition).foldl
        (fun ks t => if t ∈ ks then ks else ks ++ [t]) ks)
    []

/-- Sum of the probabilities of hypotheses whose condition token set has the
    token as a member (apsaEngine.ts lines 96-99); has is exact Set
    membership, not the substring heuristic. -/
def pPresentOf (kb : Knowledge) (hyps : List Hypothesis) (token : Str) : ℚ :=
  hyps.foldl
    (fun acc h => if token ∈ kbLookup kb h.condition then acc + h.probability else acc) 0

/-- Distance of p from one half.  For 0 < p < 1 the binary entropy
    -(p log2 p + (1-p) log2 (1-p)) computed by the source is strictly
    decreasing in this distance, so the comparison of gains in the source is
    modelled exactly by the opposite comparison of these distances. -/
def distHalf (p : ℚ) : ℚ := |p - 1 / 2|

/-- Loop body of the planner's best-candidate search (apsaEngine.ts lines
    94-104): skip candidates whose present-probability is exactly 0 or
    exactly 1, and keep the candidate of strictly maximal gain, that is of
    strictly minimal distance from one half (first seen wins ties). -/
def plannerStep (kb : Knowledge) (hyps : List Hypothesis)
    (best : Option (Str × ℚ)) (token : Str) : Option (Str × ℚ) :=
  let p := pPresentOf kb hyps token
  if p = 0 ∨ 1 - p = 0 then best
  else
    match best with
    | none => some (token, distHalf p)
    | some (bt, bd) =>
      if distHalf p < bd then some (token, distHalf p) else some (bt, bd)

/-- The best-candidate search of the planner. -/
def bestCandidate (kb : Knowledge) (hyps : List Hypothesis)
    (candidates : List Str) : Option (Str × ℚ) :=
  candidates.foldl (plannerStep kb hyps) none

/-- Candidate tokens of the planner (apsaEngine.ts lines 91-92): the
    symptomFreq keys that are not already evidence names and that match the
    planner keyword set. -/
def plannerCandidates (kb : Knowledge) (st : EngineState) : List Str :=
  (freqKeys kb st.hypotheses).filter
    (fun k => !((st.evidence.map Evidence.name).contains k)
      && matchesKeywords plannerKeywords k)

/-- The plan built for the winning token (apsaEngine.ts lines 106-111). -/
def mkPlan (st : EngineState) (token : Str) : QuestionPlan :=
  { question := strOf "Have you experienced " ++ token ++ strOf "?"
    targetSymptom := token
    rationale := strOf "High information gain discriminating among leading hypotheses"
    expectedSplits := st.hypotheses.map (fun h => (h.condition, h.probability)) }

/-- The proposeQuestion method (apsaEngine.ts lines 80-114), in state-passing
    style: the returned plan (or none) next to the updated state. -/
def proposeQuestion (kb : Knowledge) (st : EngineState) :
    Option QuestionPlan × EngineState :=
  if st.hypotheses.length < 2 then (none, st)
  else
    match bestCandidate kb st.hypotheses (plannerCandidates kb st) with
    | none => (none, st)
    | some (token, _) =>
      (some (mkPlan st token),
        { st with askedQuestions := st.askedQuestions ++ [mkPlan st token] })

/-- Bump one counter key: an existing key keeps its position, a new key is
    appended with count 1 (JS object semantics). -/
def bumpCounter (counter : List (Str × Nat)) (t : Str) : List (Str × Nat) :=
  if counter.any (fun p => p.1 == t) then
    counter.map (fun p => if p.1 == t then (p.1, p.2 + 1) else p)
  else counter ++ [(t, 1)]

/-- Total preorder used by the co-occurrence sort comparator
    (a,b) => b[1] - a[1]. -/
def countGe (a b : Str × Nat) : Prop := b.2 ≤ a.2

instance : DecidableRel countGe := fun a b => inferInstanceAs (Decidable (b.2 ≤ a.2))

/-- Stable descending sort of counter entries by count. -/
def sortCounts (l : List (Str × Nat)) : List (Str × Nat) := l.insertionSort countGe

/-- Inner loop of getCooccurring (apsaEngine.ts lines 124-128): count every
    token of a qualifying condition except those containing the phrase and
    those shorter than 3 code points. -/
def counterStep (target : Str) (c : List (Str × Nat)) (t : Str) : List (Str × Nat) :=
  if hasSubstr t target then c
  else if t.length < 3 then c
  else bumpCounter c t

/-- Outer loop of getCooccurring (apsaEngine.ts lines 120-130): a condition
    qualifies when some of its tokens contains the phrase. -/
def condCounterStep (target : Str) (counter : List (Str × Nat)) (p : Str × List Str) :
    List (Str × Nat) :=
  if p.2.any (fun t => hasSubstr t target) then p.2.foldl (counterStep target) counter
  else counter

/-- The getCooccurring method (apsaEngine.ts lines 117-135). -/
def getCooccurring (kb : Knowledge) (symptom : Str) (limit : Nat) : List Str :=
  let target := toLowerStr symptom
  ((sortCounts (kb.foldl (condCounterStep target) [])).take limit).map Prod.fst

/-- Structural rebuild of a string, as done by the JSON round trip. -/
def copyStr : Str → Str
  | [] => []
  | c :: t => c :: copyStr t

/-- Structural rebuild of one evidence record. -/
def copyEvidence (e : Evidence) : Evidence :=
  { name := copyStr e.name
    presence := e.presence
    sourceMessageIndex := e.sourceMessageIndex }

/-- Structural rebuild of one hypothesis. -/
def copyHypothesis (h : Hypothesis) : Hypothesis :=
  { condition := copyStr h.condition
    probability := h.probability
    supporting := h.supporting.map copyStr
    contradicting := h.contradicting.map copyStr }

/-- Structural rebuild of one question plan. -/
def copyQuestionPlan (q : QuestionPlan) : QuestionPlan :=
  { question := copyStr q.question
    targetSymptom := copyStr q.targetSymptom
    rationale := copyStr q.rationale
    expectedSplits := q.expectedSplits.map (fun p => (copyStr p.1, p.2)) }

/-- The JSON.parse-of-JSON.stringify deep copy of the state: every node of
    the snapshot tree is rebuilt as a fresh, structurally identical value. -/
def copyState (st : EngineState) : EngineState :=
  { cycle := st.cycle
    hypotheses := st.hypotheses.map copyHypothesis
    askedQuestions := st.askedQuestions.map copyQuestionPlan
    evidence := st.evidence.map copyEvidence
    terminated := st.terminated }

/-- The getSnapshot method (apsaEngine.ts line 31), in state-passing style:
    the deep copy next to the unchanged state. -/
def getSnapshot (st : EngineState) : EngineState × EngineState :=
  (copyState st, st)

/-- The getCooccurring method as a state-passing query: its body reads only
    the knowledge base, never the mutable state. -/
def getCooccurringQuery (kb : Knowledge) (st : EngineState) (symptom : Str)
    (limit : Nat) : List Str × EngineState :=
  (getCooccurring kb symptom limit, st)

/-- One intake operation driving the engine. -/
inductive EngineOp where
  | freeText (text : Str) (messageIndex : Nat)
  | answer (symptom : Str) (presence : Presence) (messageIndex : Nat)

/-- Apply one intake operation. -/
def applyOp (kb : Knowledge) (st : EngineState) : EngineOp → EngineState
  | .freeText text mi => addUserFreeText kb st text mi
  | .answer s p mi => answerQuestion kb st s p mi

/-- Run a sequence of intake operations from the initial state. -/
def runOps (kb : Knowledge) (ops : List EngineOp) : EngineState :=
  ops.foldl (applyOp kb) initState

/-- At most one evidence record per distinct name. -/
def NamesNodup (ev : List Evidence) : Prop := (ev.map Evidence.name).Nodup

/-- A condition has at least one supporting evidence match: a present record
    whose name is contained as a substring in some token of the condition. -/
def HasSupport (toks : List Str) (evidence : List Evidence) : Prop :=
  ∃ e ∈ evidence, e.presence = .present ∧ ∃ t ∈ toks, hasSubstr t e.name = true

/-! ### Concrete data used to instantiate the theorems -/

/-- The two-condition dataset of the specification's worked example. -/
def exRows : List (Str × Str) :=
  [(strOf "Strep Throat", strOf "sore throat; fever; swollen glands"),
   (strOf "Common Cold", strOf "runny nose; sore throat; cough")]

/-- Knowledge base built from the worked-example dataset. -/
def exKb : Knowledge := buildKnowledge exRows

/-- State holding one present sore-throat evidence record. -/
def exStSore : EngineState :=
  { initState with
    evidence := [{ name := strOf "sore throat", presence := .present, sourceMessageIndex := 0 }] }

/-- One-condition knowledge base whose only retained score is positive. -/
def oneRowKb : Knowledge := buildKnowledge [(strOf "A", strOf "high fever")]

/-- A single present fever record. -/
def oneEv : List Evidence :=
  [{ name := strOf "fever", presence := .present, sourceMessageIndex := 0 }]

/-- Knowledge base for which a retained condition can score negatively. -/
def negKb : Knowledge :=
  buildKnowledge [(strOf "A", strOf "high fever; bad cough; dry cough")]

/-- Evidence giving the negKb condition score 2 - 2 - 2 = -2 with nonempty
    support. -/
def negEv : List Evidence :=
  [{ name := strOf "fever", presence := .present, sourceMessageIndex := 0 },
   { name := strOf "cough", presence := .absent, sourceMessageIndex := 1 }]

/-- Knowledge base whose planner proposes the token chest discomfort, which
    matches the planner keyword set but not the extractor keyword set. -/
def chestKb : Knowledge :=
  buildKnowledge
    [(strOf "A", strOf "fever stuff; chest discomfort"),
     (strOf "B", strOf "fever stuff")]

/-- State reached from the initial state by one structured fever answer. -/
def chestSt : EngineState := answerQuestion chestKb initState (strOf "fever") .present 0

/-- An evidence record whose name carries an uppercase letter and leading
    whitespace. -/
def upEvidence : Evidence :=
  { name := strOf " Fever", presence := .present, sourceMessageIndex := 1 }

/-- A one-operation intake run. -/
def opsW : List EngineOp := [.answer (strOf "fever") .present 0]

/-! ### Lemmas about the string primitives -/

theorem leadsStr_refl (s : Str) : leadsStr s s = true := by
  induction s with
  | nil => rfl
  | cons c t ih => simp [leadsStr, ih]

theorem hasSubstr_refl (s : Str) : hasSubstr s s = true := by
  cases s with
  | nil => rfl
  | cons c t => simp [hasSubstr, leadsStr_refl]

theorem leadsStr_mem {n h : Str} (hl : leadsStr n h = true) : ∀ c ∈ n, c ∈ h := by
  induction n generalizing h with
  | nil => intro c hc; simp at hc
  | cons c cs ih =>
    cases h with
    | nil => simp [leadsStr] at hl
    | cons d ds =>
      rw [leadsStr, Bool.and_eq_true, beq_iff_eq] at hl
      intro x hx
      rcases List.mem_cons.mp hx with rfl | hx
      · rw [hl.1]; exact List.mem_cons_self _ _
      · exact List.mem_cons_of_mem _ (ih hl.2 x hx)

theorem hasSubstr_mem {h n : Str} (hs : hasSubstr h n = true) : ∀ c ∈ n, c ∈ h := by
  induction h with
  | nil =>
    cases n with
    | nil => intro c hc; simp at hc
    | cons c cs => simp [hasSubstr, leadsStr] at hs
  | cons d ds ih =>
    rw [hasSubstr, Bool.or_eq_true] at hs
    rcases hs with hs | hs
    · exact leadsStr_mem hs
    · intro c hc
      exact List.mem_cons_of_mem _ (ih hs c hc)

theorem lowerCode_not_upper (c : Nat) : isUpperCode (lowerCode c) = false := by
  unfold lowerCode
  split
  · next h =>
    simp only [isUpperCode, Bool.and_eq_true, decide_eq_true_eq] at h
    simp only [isUpperCode, Bool.and_eq_false_iff, decide_eq_false_iff_not]
    omega
  · next h => simpa using h

theorem toLowerStr_not_upper {s : Str} : ∀ c ∈ toLowerStr s, isUpperCode c = false := by
  intro c hc
  rcases List.mem_map.mp hc with ⟨d, _, rfl⟩
  exact lowerCode_not_upper d

theorem lowerCode_fixed {c : Nat} (h : isUpperCode c = false) : lowerCode c = c := by
  simp [lowerCode, h]

theorem toLowerStr_fixed {s : Str} (h : ∀ c ∈ s, isUpperCode c = false) :
    toLowerStr s = s := by
  induction s with
  | nil => rfl
  | cons c t ih =>
    have hc := h c (List.mem_cons_self _ _)
    have ht : ∀ x ∈ t, isUpperCode x = false := fun x hx => h x (List.mem_cons_of_mem _ hx)
    simp only [toLowerStr, List.map_cons] at ih ⊢
    rw [lowerCode_fixed hc, ih ht]

/-- A string with an uppercase code is not a substring of an all-lowercase
    string. -/
theorem hasSubstr_eq_false_of_upper {t s : Str}
    (ht : ∀ c ∈ t, isUpperCode c = false) {c : Nat} (hc : c ∈ s)
    (hcu : isUpperCode c = true) : hasSubstr t s = false := by
  by_contra hne
  have hsub : hasSubstr t s = true := by
    cases hx : hasSubstr t s with
    | false => exact absurd hx hne
    | true => rfl
  have := ht c (hasSubstr_mem hsub c hc)
  rw [this] at hcu
  exact Bool.false_ne_true hcu

/-! ### Lemmas about minima and sums -/

theorem foldl_min_le_init (l : List Int) (a : Int) : l.foldl min a ≤ a := by
  induction l generalizing a with
  | nil => exact le_refl a
  | cons x xs ih => exact le_trans (ih (min a x)) (min_le_left a x)

theorem foldl_min_le_mem {l : List Int} {x : Int} (hx : x ∈ l) (a : Int) :
    l.foldl min a ≤ x := by
  induction l generalizing a with
  | nil => simp at hx
  | cons y ys ih =>
    rcases List.mem_cons.mp hx with rfl | hx
    · exact le_trans (foldl_min_le_init ys (min a x)) (min_le_right a x)
    · exact ih hx (min a y)

theorem foldl_min_mem_or_init (l : List Int) (a : Int) :
    l.foldl min a = a ∨ l.foldl min a ∈ l := by
  induction l generalizing a with
  | nil => exact Or.inl rfl
  | cons x xs ih =>
    rcases ih (min a x) with h | h
    · rcases le_total a x with hax | hxa
      · left; rw [List.foldl_cons, h, min_eq_left hax]
      · right; rw [List.foldl_cons, h, min_eq_right hxa]; exact List.mem_cons_self _ _
    · right; exact List.mem_cons_of_mem _ h

theorem foldl_add_eq_sum (l : List ℚ) (a : ℚ) : l.foldl (· + ·) a = a + l.sum := by
  induction l generalizing a with
  | nil => simp
  | cons x xs ih => rw [List.foldl_cons, ih, List.sum_cons]; ring

theorem sum_map_div (l : List ℚ) (c : ℚ) : (l.map (· / c)).sum = l.sum / c := by
  induction l with
  | nil => simp
  | cons x xs ih => rw [List.map_cons, List.sum_cons, List.sum_cons, ih, add_div]

/-! ### Lemmas about the scoring folds -/

theorem stepToken_fst (ev : Evidence) (acc : Int × List Str × List Str) (t : Str) :
    (stepToken ev acc t).1 = acc.1 + stepDelta ev t := by
  unfold stepToken stepDelta
  split
  · cases ev.presence <;> simp [Int.sub_eq_add_neg]
  · simp

theorem stepToken_supp (ev : Evidence) (acc : Int × List Str × List Str) (t : Str) :
    (stepToken ev acc t).2.1
      = acc.2.1 ++
          (if hasSubstr t ev.name = true ∧ ev.presence = .present then [ev.name] else []) := by
  unfold stepToken
  split
  · next h => cases hp : ev.presence <;> simp [h, hp]
  · next h => simp [h]

theorem tokFold_fst (ev : Evidence) (toks : List Str) (acc : Int × List Str × List Str) :
    (toks.foldl (stepToken ev) acc).1 = acc.1 + (toks.map (stepDelta ev)).sum := by
  induction toks generalizing acc with
  | nil => simp
  | cons t ts ih =>
    rw [List.foldl_cons, ih, stepToken_fst, List.map_cons, List.sum_cons]
    ring

theorem stepDelta_nonneg_of_present {r : Evidence} (hp : r.presence = .present)
    (t : Str) : 0 ≤ stepDelta r t := by
  unfold stepDelta
  split <;> simp [hp]

theorem stepToken_id_of_no_match {ev : Evidence} {t : Str}
    (h : hasSubstr t ev.name = false) (acc : Int × List Str × List Str) :
    stepToken ev acc t = acc := by
  unfold stepToken
  rw [if_neg (by simp [h])]

theorem tokFold_id {ev : Evidence} {toks : List Str}
    (h : ∀ t ∈ toks, hasSubstr t ev.name = false) (acc : Int × List Str × List Str) :
    toks.foldl (stepToken ev) acc = acc := by
  induction toks generalizing acc with
  | nil => rfl
  | cons t ts ih =>
    rw [List.foldl_cons, stepToken_id_of_no_match (h t (List.mem_cons_self _ _))]
    exact ih (fun x hx => h x (List.mem_cons_of_mem _ hx)) acc

theorem condScore_append_fst (toks : List Str) (evl : List Evidence) (r : Evidence) :
    (condScore toks (evl ++ [r])).1
      = (condScore toks evl).1 + (toks.map (stepDelta r)).sum := by
  unfold condScore
  rw [List.foldl_append, List.foldl_cons, List.foldl_nil]
  exact tokFold_fst r toks _

theorem condScore_append_id (toks : List Str) (evl : List Evidence) {r : Evidence}
    (h : ∀ t ∈ toks, hasSubstr t r.name = false) :
    condScore toks (evl ++ [r]) = condScore toks evl := by
  unfold condScore
  rw [List.foldl_append, List.foldl_cons, List.foldl_nil]
  exact tokFold_id h _

theorem tokFold_supp_nil (ev : Evidence) (toks : List Str)
    (acc : Int × List Str × List Str) :
    ((toks.foldl (stepToken ev) acc).2.1 = [])
      ↔ (acc.2.1 = []
          ∧ (ev.presence = .present → ∀ t ∈ toks, hasSubstr t ev.name = false)) := by
  induction toks generalizing acc with
  | nil => simp
  | cons t ts ih =>
    rw [List.foldl_cons, ih, stepToken_supp]
    by_cases hd : hasSubstr t ev.name = true ∧ ev.presence = .present
    · rw [if_pos hd]
      simp only [List.append_eq_nil, List.mem_cons]
      constructor
      · rintro ⟨⟨-, habs⟩, -⟩
        exact absurd habs (List.cons_ne_nil _ _)
      · rintro ⟨-, hall⟩
        have := hall hd.2 t (Or.inl rfl)
        rw [hd.1] at this
        simp at this
    · rw [if_neg hd, List.append_nil]
      constructor
      · rintro ⟨h1, h2⟩
        refine ⟨h1, fun hp x hx => ?_⟩
        rcases List.mem_cons.mp hx with rfl | hx
        · rcases Bool.eq_false_or_eq_true (hasSubstr x ev.name) with h | h
          · exact absurd ⟨h, hp⟩ hd
          · exact h
        · exact h2 hp x hx
      · rintro ⟨h1, h2⟩
        exact ⟨h1, fun hp x hx => h2 hp x (List.mem_cons_of_mem _ hx)⟩

theorem evStep_supp_nil (toks : List Str) (acc : Int × List Str × List Str)
    (e : Evidence) :
    ((evStep toks acc e).2.1 = [])
      ↔ (acc.2.1 = []
          ∧ (e.presence = .present → ∀ t ∈ toks, hasSubstr t e.name = false)) :=
  tokFold_supp_nil e toks acc

theorem evFold_supp_nil (toks : List Str) (evl : List Evidence)
    (acc : Int × List Str × List Str) :
    ((evl.foldl (evStep toks) acc).2.1 = [])
      ↔ (acc.2.1 = []
          ∧ ∀ e ∈ evl, e.presence = .present → ∀ t ∈ toks, hasSubstr t e.name = false) := by
  induction evl generalizing acc with
  | nil => simp
  | cons e es ih =>
    rw [List.foldl_cons, ih, evStep_supp_nil]
    constructor
    · rintro ⟨⟨h1, h2⟩, h3⟩
      refine ⟨h1, fun x hx => ?_⟩
      rcases List.mem_cons.mp hx with rfl | hx
      · exact h2
      · exact h3 x hx
    · rintro ⟨h1, h2⟩
      exact ⟨⟨h1, h2 e (List.mem_cons_self _ _)⟩,
        fun x hx => h2 x (List.mem_cons_of_mem _ hx)⟩

theorem condScore_supp_nil (toks : List Str) (evl : List Evidence) :
    ((condScore toks evl).2.1 = []) ↔ ¬ HasSupport toks evl := by
  unfold condScore
  rw [evFold_supp_nil]
  unfold HasSupport
  constructor
  · rintro ⟨-, h⟩ ⟨e, he, hp, t, ht, hs⟩
    rw [h e he hp t ht] at hs
    exact Bool.false_ne_true hs
  · intro h
    refine ⟨rfl, fun e he hp t ht => ?_⟩
    rcases Bool.eq_false_or_eq_true (hasSubstr t e.name) with hx | hx
    · exact absurd ⟨e, he, hp, t, ht, hx⟩ h
    · exact hx

theorem rawScores_eq_nil_iff (kb : Knowledge) (evl : List Evidence) :
    rawScores kb evl = [] ↔ ∀ p ∈ kb, ¬ HasSupport p.2 evl := by
  unfold rawScores
  rw [List.filterMap_eq_nil_iff]
  constructor
  · intro h p hp
    have h2 := h p hp
    rw [← condScore_supp_nil]
    by_cases hne : (condScore p.2 evl).2.1 = []
    · exact hne
    · rw [if_pos hne] at h2
      exact absurd h2 (Option.some_ne_none _)
  · intro h p hp
    have hnil := (condScore_supp_nil p.2 evl).mpr (h p hp)
    rw [if_neg (by simp [hnil])]

/-! ### Lemmas about sorting, the top slice and the shift -/

theorem sortScores_eq_nil_iff (l : List ScoreRec) : sortScores l = [] ↔ l = [] := by
  constructor
  · intro h
    have hlen := List.length_insertionSort scoreGe l
    rw [sortScores] at h
    rw [h] at hlen
    exact List.eq_nil_of_length_eq_zero hlen.symm
  · rintro rfl
    rfl

theorem rawTop_eq_nil_iff (kb : Knowledge) (evl : List Evidence) :
    rawTop kb evl = [] ↔ rawScores kb evl = [] := by
  unfold rawTop
  rw [List.take_eq_nil_iff, sortScores_eq_nil_iff]
  simp

theorem mem_rawTop {kb : Knowledge} {evl : List Evidence} {x : ScoreRec}
    (hx : x ∈ rawTop kb evl) : x ∈ rawScores kb evl := by
  unfold rawTop at hx
  exact (List.mem_insertionSort scoreGe).mp (List.mem_of_mem_take hx)

theorem shiftBase_le_mem {kb : Knowledge} {evl : List Evidence} {t : ScoreRec}
    (ht : t ∈ rawTop kb evl) : shiftBase kb evl ≤ t.score :=
  foldl_min_le_mem (List.mem_map_of_mem ScoreRec.score ht) 0

theorem shiftedScores_lb (kb : Knowledge) (evl : List Evidence) :
    ∀ q ∈ (shiftedScores kb evl).map Prod.snd, 1 / 1000 ≤ q := by
  intro q hq
  rcases List.mem_map.mp hq with ⟨ts, hts, rfl⟩
  rcases List.mem_map.mp hts with ⟨t, ht, rfl⟩
  have hmin : ((shiftBase kb evl : Int) : ℚ) ≤ ((t.score : Int) : ℚ) := by
    exact_mod_cast shiftBase_le_mem ht
  simp only
  linarith

theorem totalShifted_eq_sum {kb : Knowledge} {evl : List Evidence}
    (h : shiftedScores kb evl ≠ []) :
    totalShifted kb evl = ((shiftedScores kb evl).map Prod.snd).sum
      ∧ 0 < ((shiftedScores kb evl).map Prod.snd).sum := by
  have hpos : 0 < ((shiftedScores kb evl).map Prod.snd).sum := by
    apply List.sum_pos
    · intro q hq
      exact lt_of_lt_of_le (by norm_num) (shiftedScores_lb kb evl q hq)
    · simpa using h
  refine ⟨?_, hpos⟩
  unfold totalShifted
  simp only [foldl_add_eq_sum, zero_add]
  rw [if_neg (ne_of_gt hpos)]

/-! ### C1 -/

/-- C1: for every knowledge base and every evidence set, the hypothesis list
    produced by the scorer sums to probability 1 whenever it is non-empty
    (exactly 1 in the exact-rational model, hence within epsilon in floating
    point), and it is empty iff no condition in the knowledge base has at
    least one supporting evidence match. -/
theorem scorer_sum_one_and_empty_iff (kb : Knowledge) (st : EngineState) :
    ((regenerateHypotheses kb st).hypotheses ≠ [] →
      ((regenerateHypotheses kb st).hypotheses.map Hypothesis.probability).sum = 1) ∧
    ((regenerateHypotheses kb st).hypotheses = []
      ↔ ∀ p ∈ kb, ¬ HasSupport p.2 st.evidence) := by
  have hyps_eq : (regenerateHypotheses kb st).hypotheses
      = (shiftedScores kb st.evidence).map (fun ts =>
          ({ condition := ts.1.condition
             probability := ts.2 / totalShifted kb st.evidence
             supporting := ts.1.supporting
             contradicting := ts.1.contradicting } : Hypothesis)) := rfl
  constructor
  · intro hne
    rw [hyps_eq] at hne ⊢
    have hsne : shiftedScores kb st.evidence ≠ [] := by
      intro h
      rw [h] at hne
      exact hne rfl
    obtain ⟨htot, hpos⟩ := totalShifted_eq_sum hsne
    rw [List.map_map]
    have hprob : ((shiftedScores kb st.evidence).map
          (Hypothesis.probability ∘ fun ts =>
            ({ condition := ts.1.condition
               probability := ts.2 / totalShifted kb st.evidence
               supporting := ts.1.supporting
               contradicting := ts.1.contradicting } : Hypothesis)))
        = ((shiftedScores kb st.evidence).map Prod.snd).map
            (· / totalShifted kb st.evidence) := by
      rw [List.map_map]
      rfl
    rw [hprob, sum_map_div, htot, div_self (ne_of_gt hpos)]
  · rw [hyps_eq, List.map_eq_nil_iff]
    unfold shiftedScores
    rw [List.map_eq_nil_iff, rawTop_eq_nil_iff, rawScores_eq_nil_iff]

/-- Witness for C1: at the worked-example knowledge base with one present
    sore-throat record the hypothesis list is non-empty and its probabilities
    sum to exactly 1. -/
theorem scorer_sum_one_witness :
    ((regenerateHypotheses exKb exStSore).hypotheses.map Hypothesis.probability).sum = 1 :=
  (scorer_sum_one_and_empty_iff exKb exStSore).1 (by with_unfolding_all decide)

/-! ### C2 -/

/-- C2 counterexample: with a single condition whose only retained raw score
    is positive (score 2), the shift base is min(2, 0) = 0, so the lowest
    shifted score is 2.001, not 0.001, and the lowest retained hypothesis has
    probability 1, not 0.001 divided by the sum of the shifted scores. -/
theorem scorer_min_shift_counterexample :
    (shiftedScores oneRowKb oneEv).map Prod.snd = [2001 / 1000]
      ∧ ((regenerateHypotheses oneRowKb { initState with evidence := oneEv }).hypotheses.map
            Hypothesis.probability) = [1]
      ∧ ¬ ((2001 : ℚ) / 1000 = 1 / 1000)
      ∧ ¬ ((1 : ℚ) = (1 / 1000) / totalShifted oneRowKb oneEv) := by
  with_unfolding_all decide

/-- C2 (amended): the scorer shifts the retained raw scores by
    min(retained minimum, 0) plus 0.001, so the minimum shifted score is
    exactly 0.001 precisely when some retained raw score is at most 0; when
    every retained score is positive the shift is just +0.001. -/
theorem scorer_min_shift_amended (kb : Knowledge) (evl : List Evidence)
    (h : ∃ r ∈ rawTop kb evl, r.score ≤ 0) :
    ∃ q ∈ (shiftedScores kb evl).map Prod.snd,
      q = 1 / 1000 ∧ ∀ q' ∈ (shiftedScores kb evl).map Prod.snd, 1 / 1000 ≤ q' := by
  obtain ⟨r, hr, hrle⟩ := h
  have hattain : ∃ u ∈ rawTop kb evl, u.score = shiftBase kb evl := by
    rcases foldl_min_mem_or_init ((rawTop kb evl).map ScoreRec.score) 0 with h0 | hmem
    · refine ⟨r, hr, le_antisymm ?_ (shiftBase_le_mem hr)⟩
      unfold shiftBase
      rw [h0]
      exact hrle
    · rcases List.mem_map.mp hmem with ⟨u, hu, hus⟩
      exact ⟨u, hu, hus⟩
  obtain ⟨u, hu, hus⟩ := hattain
  refine ⟨(u.score : ℚ) - (shiftBase kb evl : ℚ) + 1 / 1000, ?_, ?_, shiftedScores_lb kb evl⟩
  · exact List.mem_map_of_mem Prod.snd (List.mem_map_of_mem _ hu)
  · rw [hus]
    ring

/-- Witness for the amended C2: with a retained condition of raw score -2 the
    lowest shifted score is exactly 0.001. -/
theorem scorer_min_shift_amended_witness :
    ∃ q ∈ (shiftedScores negKb negEv).map Prod.snd,
      q = 1 / 1000 ∧ ∀ q' ∈ (shiftedScores negKb negEv).map Prod.snd, 1 / 1000 ≤ q' :=
  scorer_min_shift_amended negKb negEv (by with_unfolding_all decide)

/-! ### C3 -/

theorem plannerStep_skip {kb : Knowledge} {hyps : List Hypothesis} {c : Str}
    (h : pPresentOf kb hyps c = 0 ∨ 1 - pPresentOf kb hyps c = 0)
    (acc : Option (Str × ℚ)) : plannerStep kb hyps acc c = acc := by
  unfold plannerStep
  rw [if_pos h]

theorem bestCandidate_mem_aux (kb : Knowledge) (hyps : List Hypothesis) :
    ∀ (cands : List Str) (acc : Option (Str × ℚ)) (t : Str) (d : ℚ),
      cands.foldl (plannerStep kb hyps) acc = some (t, d) →
      (∃ d0, acc = some (t, d0)) ∨ t ∈ cands := by
  intro cands
  induction cands with
  | nil =>
    intro acc t d h
    exact Or.inl ⟨d, h⟩
  | cons c cs ih =>
    intro acc t d h
    rw [List.foldl_cons] at h
    rcases ih _ t d h with ⟨d0, hacc⟩ | hmem
    · by_cases hskip : pPresentOf kb hyps c = 0 ∨ 1 - pPresentOf kb hyps c = 0
      · rw [plannerStep_skip hskip] at hacc
        exact Or.inl ⟨d0, hacc⟩
      · cases hacc0 : acc with
        | none =>
          have hstep : plannerStep kb hyps acc c
              = some (c, distHalf (pPresentOf kb hyps c)) := by
            unfold plannerStep
            rw [if_neg hskip, hacc0]
          rw [hstep] at hacc
          simp only [Option.some.injEq, Prod.mk.injEq] at hacc
          right
          rw [← hacc.1]
          exact List.mem_cons_self _ _
        | some pair =>
          obtain ⟨bt, bd⟩ := pair
          have hstep : plannerStep kb hyps acc c
              = if distHalf (pPresentOf kb hyps c) < bd then
                  some (c, distHalf (pPresentOf kb hyps c))
                else some (bt, bd) := by
            unfold plannerStep
            rw [if_neg hskip, hacc0]
          rw [hstep] at hacc
          split at hacc
          · simp only [Option.some.injEq, Prod.mk.injEq] at hacc
            right
            rw [← hacc.1]
            exact List.mem_cons_self _ _
          · simp only [Option.some.injEq, Prod.mk.injEq] at hacc
            left
            exact ⟨bd, by simp [hacc0, hacc.1]⟩
    · exact Or.inr (List.mem_cons_of_mem _ hmem)

theorem bestCandidate_mem {kb : Knowledge} {hyps : List Hypothesis}
    {cands : List Str} {t : Str} {d : ℚ}
    (h : bestCandidate kb hyps cands = some (t, d)) : t ∈ cands := by
  rcases bestCandidate_mem_aux kb hyps cands none t d h with ⟨d0, h0⟩ | hm
  · exact absurd h0 (by simp)
  · exact hm

/-- C3 (amended): every targetSymptom the planner returns matches the
    planner's own keyword set (pain, fever, cough, headache, dizz, nausea,
    vomit, rash, swelling, diarrhea, shortness of breath, chest), which is a
    different set from the extractor's. -/
theorem planner_target_matches_planner_keywords (kb : Knowledge) (st : EngineState)
    (t : Str)
    (h : (proposeQuestion kb st).1.map QuestionPlan.targetSymptom = some t) :
    matchesKeywords plannerKeywords t = true := by
  unfold proposeQuestion at h
  by_cases hlen : st.hypotheses.length < 2
  · rw [if_pos hlen] at h
    simp at h
  · rw [if_neg hlen] at h
    rcases hbc : bestCandidate kb st.hypotheses (plannerCandidates kb st) with _ | ⟨tok, d⟩
    · rw [hbc] at h
      simp at h
    · rw [hbc] at h
      have htok : tok = t := by simpa [mkPlan] using h
      have hmem := bestCandidate_mem hbc
      rw [← htok]
      have hfil := (List.mem_filter.mp hmem).2
      simp only [Bool.and_eq_true] at hfil
      exact hfil.2

/-- C3 counterexample: a reachable state in which the planner proposes the
    token chest discomfort, which does not match the extractor keyword set,
    refuting the claim that every targetSymptom matches the extractor's
    pattern. -/
theorem planner_keyword_counterexample :
    (proposeQuestion chestKb chestSt).1.map QuestionPlan.targetSymptom
        = some (strOf "chest discomfort")
      ∧ matchesKeywords extractorKeywords (strOf "chest discomfort") = false := by
  with_unfolding_all decide

/-- Witness for the amended C3 at the chest-discomfort state. -/
theorem planner_target_matches_planner_keywords_witness :
    matchesKeywords plannerKeywords (strOf "chest discomfort") = true :=
  planner_target_matches_planner_keywords chestKb chestSt (strOf "chest discomfort")
    (by with_unfolding_all decide)

/-! ### C4 -/

/-- C4: whenever fewer than 2 hypotheses are held, proposeQuestion returns a
    null plan and leaves the state unchanged, regardless of the evidence
    list. -/
theorem planner_null_when_few_hypotheses (kb : Knowledge) (st : EngineState)
    (h : st.hypotheses.length < 2) : proposeQuestion kb st = (none, st) := by
  unfold proposeQuestion
  rw [if_pos h]

/-- Witness for C4 at the initial state, whose hypothesis list is empty. -/
theorem planner_null_when_few_hypotheses_witness :
    proposeQuestion exKb initState = (none, initState) :=
  planner_null_when_few_hypotheses exKb initState (by decide)

/-! ### C5 and C6: evidence-list invariants -/

theorem regen_evidence (kb : Knowledge) (st : EngineState) :
    (regenerateHypotheses kb st).evidence = st.evidence := rfl

theorem freeTextStep_extends (mi : Nat) (acc : List Evidence) (c : Str) :
    freeTextStep mi acc c = acc
      ∨ (freeTextStep mi acc c
            = acc ++ [{ name := c, presence := .present, sourceMessageIndex := mi }]
          ∧ acc.any (fun e => e.name == c) = false) := by
  unfold freeTextStep
  split
  · next h =>
    rw [Bool.and_eq_true] at h
    right
    refine ⟨rfl, ?_⟩
    simpa using h.2
  · left
    rfl

theorem freeTextFold_extends (mi : Nat) (cands : List Str) (acc : List Evidence) :
    ∃ ext : List Evidence,
      cands.foldl (freeTextStep mi) acc = acc ++ ext
        ∧ ∀ r ∈ ext, ∀ e ∈ acc, ¬ e.name = r.name := by
  induction cands generalizing acc with
  | nil => exact ⟨[], by simp, by simp⟩
  | cons c cs ih =>
    rw [List.foldl_cons]
    rcases freeTextStep_extends mi acc c with hid | ⟨happ, hany⟩
    · rw [hid]
      exact ih acc
    · rw [happ]
      obtain ⟨ext, hext, hdis⟩ :=
        ih (acc ++ [{ name := c, presence := .present, sourceMessageIndex := mi }])
      refine ⟨{ name := c, presence := .present, sourceMessageIndex := mi } :: ext, ?_, ?_⟩
      · rw [hext]
        simp
      · intro r hr e he
        rcases List.mem_cons.mp hr with rfl | hr
        · intro hc
          have hgot : acc.any (fun e => e.name == c) = true :=
            List.any_eq_true.mpr ⟨e, he, by simp [hc]⟩
          rw [hany] at hgot
          simp at hgot
        · exact hdis r hr e (List.mem_append_left _ he)

/-- C6: a free-text intake never touches existing evidence records: the new
    evidence list is the old one followed by fresh records whose names differ
    from every existing name, so a phrase equal to an existing name changes
    nothing (same presence, same source index) and inserts no duplicate. -/
theorem freetext_preserves_existing_evidence (kb : Knowledge) (st : EngineState)
    (text : Str) (mi : Nat) :
    ∃ ext : List Evidence,
      (addUserFreeText kb st text mi).evidence = st.evidence ++ ext
        ∧ ∀ r ∈ ext, ∀ e ∈ st.evidence, ¬ e.name = r.name :=
  freeTextFold_extends mi
    (((splitStr [44, 59, 10] (toLowerStr text)).map trimStr).filter (fun t => t ≠ []))
    st.evidence

/-- Witness for C6: a free-text mention of the already-recorded sore-throat
    evidence extends the list without touching the existing record. -/
theorem freetext_preserves_existing_evidence_witness :
    ∃ ext : List Evidence,
      (addUserFreeText exKb exStSore (strOf "sore throat, mild fever") 3).evidence
          = exStSore.evidence ++ ext
        ∧ ∀ r ∈ ext, ∀ e ∈ exStSore.evidence, ¬ e.name = r.name :=
  freetext_preserves_existing_evidence exKb exStSore (strOf "sore throat, mild fever") 3

theorem freeTextFold_nodup (mi : Nat) (cands : List Str) (acc : List Evidence)
    (h : NamesNodup acc) : NamesNodup (cands.foldl (freeTextStep mi) acc) := by
  induction cands generalizing acc with
  | nil => exact h
  | cons c cs ih =>
    rw [List.foldl_cons]
    apply ih
    rcases freeTextStep_extends mi acc c with hid | ⟨happ, hany⟩
    · rw [hid]
      exact h
    · rw [happ]
      unfold NamesNodup at h ⊢
      rw [List.map_append, List.nodup_append]
      refine ⟨h, List.nodup_singleton _, ?_⟩
      intro a ha hb
      simp only [List.map_cons, List.map_nil, List.mem_singleton] at hb
      rcases List.mem_map.mp ha with ⟨e, he, rfl⟩
      have hgot : acc.any (fun e => e.name == c) = true :=
        List.any_eq_true.mpr ⟨e, he, by simp [hb]⟩
      rw [hany] at hgot
      simp at hgot

theorem updateFirst_map_name (s : Str) (pr : Presence) (l : List Evidence) :
    (updateFirst s pr l).map Evidence.name = l.map Evidence.name := by
  induction l with
  | nil => rfl
  | cons e es ih =>
    unfold updateFirst
    split
    · simp
    · simp [ih]

theorem answerQuestion_evidence (kb : Knowledge) (st : EngineState) (s : Str)
    (pr : Presence) (mi : Nat) :
    (answerQuestion kb st s pr mi).evidence
      = if st.evidence.any (fun e => e.name == s) then updateFirst s pr st.evidence
        else st.evidence ++ [{ name := s, presence := pr, sourceMessageIndex := mi }] := rfl

theorem answerQuestion_nodup (kb : Knowledge) (st : EngineState) (s : Str)
    (pr : Presence) (mi : Nat) (h : NamesNodup st.evidence) :
    NamesNodup (answerQuestion kb st s pr mi).evidence := by
  rw [answerQuestion_evidence]
  split
  · next hfound =>
    unfold NamesNodup
    rw [updateFirst_map_name]
    exact h
  · next hnf =>
    unfold NamesNodup
    rw [List.map_append, List.nodup_append]
    refine ⟨h, List.nodup_singleton _, ?_⟩
    intro a ha hb
    simp only [List.map_cons, List.map_nil, List.mem_singleton] at hb
    rcases List.mem_map.mp ha with ⟨e, he, rfl⟩
    exact hnf (List.any_eq_true.mpr ⟨e, he, by simp [hb]⟩)

theorem addUserFreeText_nodup (kb : Knowledge) (st : EngineState) (text : Str)
    (mi : Nat) (h : NamesNodup st.evidence) :
    NamesNodup (addUserFreeText kb st text mi).evidence :=
  freeTextFold_nodup mi
    (((splitStr [44, 59, 10] (toLowerStr text)).map trimStr).filter (fun t => t ≠ []))
    st.evidence h

theorem runOps_nodup (kb : Knowledge) (ops : List EngineOp) :
    NamesNodup (runOps kb ops).evidence := by
  suffices hgen : ∀ (ops : List EngineOp) (st : EngineState),
      NamesNodup st.evidence → NamesNodup (ops.foldl (applyOp kb) st).evidence by
    exact hgen ops initState (by simp [initState, NamesNodup])
  intro ops
  induction ops with
  | nil =>
    intro st h
    exact h
  | cons op ops ih =>
    intro st h
    rw [List.foldl_cons]
    apply ih
    cases op with
    | freeText text mi => exact addUserFreeText_nodup kb st text mi h
    | answer s pr mi => exact answerQuestion_nodup kb st s pr mi h

/-- C5: in every state reachable by free-text intakes and structured answers
    from the initial state the evidence list holds at most one record per
    name, and a structured answer for an existing name overwrites presence in
    place: the list of evidence names is unchanged (nothing is appended). -/
theorem evidence_nodup_and_answer_in_place (kb : Knowledge) (ops : List EngineOp) :
    NamesNodup (runOps kb ops).evidence
      ∧ ∀ (s : Str) (pr : Presence) (mi : Nat),
          (runOps kb ops).evidence.any (fun e => e.name == s) = true →
          (answerQuestion kb (runOps kb ops) s pr mi).evidence.map Evidence.name
            = (runOps kb ops).evidence.map Evidence.name := by
  refine ⟨runOps_nodup kb ops, fun s pr mi hfound => ?_⟩
  rw [answerQuestion_evidence, if_pos hfound, updateFirst_map_name]

/-- Witness for C5 after one structured answer: names stay duplicate-free and
    a repeated answer for the same name leaves the name list unchanged. -/
theorem evidence_nodup_and_answer_in_place_witness :
    NamesNodup (runOps exKb opsW).evidence
      ∧ (answerQuestion exKb (runOps exKb opsW) (strOf "fever") .absent 3).evidence.map
            Evidence.name
          = (runOps exKb opsW).evidence.map Evidence.name :=
  ⟨(evidence_nodup_and_answer_in_place exKb opsW).1,
   (evidence_nodup_and_answer_in_place exKb opsW).2 (strOf "fever") .absent 3
     (by with_unfolding_all decide)⟩

/-! ### C7: monotonicity of the raw score in present evidence -/

/-- C7: appending one present evidence record, all other evidence held fixed,
    never decreases the raw score the scorer computes for any condition. -/
theorem present_evidence_monotone_score (toks : List Str) (evl : List Evidence)
    (r : Evidence) (hp : r.presence = .present) :
    (condScore toks evl).1 ≤ (condScore toks (evl ++ [r])).1 := by
  rw [condScore_append_fst]
  have hsum : 0 ≤ (toks.map (stepDelta r)).sum := by
    apply List.sum_nonneg
    intro x hx
    rcases List.mem_map.mp hx with ⟨t, ht, rfl⟩
    exact stepDelta_nonneg_of_present hp t
  linarith

/-- Witness for C7: adding a present fever record to empty evidence does not
    decrease the score of a matching condition. -/
theorem present_evidence_monotone_score_witness :
    (condScore (tokensOfSymptoms (strOf "high fever; cough")) []).1
      ≤ (condScore (tokensOfSymptoms (strOf "high fever; cough"))
          ([] ++ [{ name := strOf "fever", presence := .present,
                    sourceMessageIndex := 0 }])).1 :=
  present_evidence_monotone_score (tokensOfSymptoms (strOf "high fever; cough")) []
    { name := strOf "fever", presence := .present, sourceMessageIndex := 0 } rfl

/-! ### C8: read-only queries -/

theorem copyStr_id (s : Str) : copyStr s = s := by
  induction s with
  | nil => rfl
  | cons c t ih => rw [copyStr, ih]

theorem map_copyStr_id (l : List Str) : l.map copyStr = l := by
  induction l with
  | nil => rfl
  | cons s t ih => rw [List.map_cons, copyStr_id, ih]

theorem copyEvidence_id (e : Evidence) : copyEvidence e = e := by
  unfold copyEvidence
  rw [copyStr_id]

theorem copyHypothesis_id (h : Hypothesis) : copyHypothesis h = h := by
  unfold copyHypothesis
  rw [copyStr_id, map_copyStr_id, map_copyStr_id]

theorem map_copyPair_id (l : List (Str × ℚ)) :
    l.map (fun p => (copyStr p.1, p.2)) = l := by
  induction l with
  | nil => rfl
  | cons p t ih => rw [List.map_cons, copyStr_id, ih]

theorem copyQuestionPlan_id (q : QuestionPlan) : copyQuestionPlan q = q := by
  unfold copyQuestionPlan
  rw [copyStr_id, copyStr_id, copyStr_id, map_copyPair_id]

theorem copyState_id (st : EngineState) : copyState st = st := by
  unfold copyState
  have h1 : st.hypotheses.map copyHypothesis = st.hypotheses :=
    List.map_congr_left (fun h _ => copyHypothesis_id h) |>.trans (List.map_id _)
  have h2 : st.askedQuestions.map copyQuestionPlan = st.askedQuestions :=
    List.map_congr_left (fun q _ => copyQuestionPlan_id q) |>.trans (List.map_id _)
  have h3 : st.evidence.map copyEvidence = st.evidence :=
    List.map_congr_left (fun e _ => copyEvidence_id e) |>.trans (List.map_id _)
  rw [h1, h2, h3]

/-- C8: the read-only queries leave the engine state unchanged, and the
    snapshot is a node-by-node rebuilt deep copy equal to the state as a
    value, so in the value semantics of this embedding no mutation of either
    side can reach the other. -/
theorem readonly_queries_preserve_state (kb : Knowledge) (st : EngineState)
    (symptom : Str) (limit : Nat) :
    (getSnapshot st).2 = st ∧ (getSnapshot st).1 = st
      ∧ (getCooccurringQuery kb st symptom limit).2 = st :=
  ⟨rfl, copyState_id st, rfl⟩

/-! ### Lemmas about lowercased knowledge-base tokens -/

theorem tokenStep_lower {acc : List Str}
    (hacc : ∀ t ∈ acc, ∀ c ∈ t, isUpperCode c = false) (chunk : Str) :
    ∀ t ∈ tokenStep acc chunk, ∀ c ∈ t, isUpperCode c = false := by
  unfold tokenStep
  intro t ht
  split at ht
  · split at ht
    · exact hacc t ht
    · rcases List.mem_append.mp ht with h | h
      · exact hacc t h
      · rw [List.mem_singleton] at h
        subst h
        intro c hc
        exact toLowerStr_not_upper c hc
  · exact hacc t ht

theorem tokensFoldStep_lower (chunks : List Str) (acc : List Str)
    (hacc : ∀ t ∈ acc, ∀ c ∈ t, isUpperCode c = false) :
    ∀ t ∈ chunks.foldl tokenStep acc, ∀ c ∈ t, isUpperCode c = false := by
  induction chunks generalizing acc with
  | nil => exact hacc
  | cons ch chs ih =>
    rw [List.foldl_cons]
    exact ih _ (tokenStep_lower hacc ch)

theorem tokensOfSymptoms_lower (s : Str) :
    ∀ t ∈ tokensOfSymptoms s, ∀ c ∈ t, isUpperCode c = false :=
  tokensFoldStep_lower _ [] (by simp)

theorem recordSet_values {kb : Knowledge} {k : Str} {v : List Str}
    {P : List Str → Prop} (hkb : ∀ p ∈ kb, P p.2) (hv : P v) :
    ∀ p ∈ recordSet kb k v, P p.2 := by
  unfold recordSet
  split
  · intro p hp
    rcases List.mem_map.mp hp with ⟨q, hq, rfl⟩
    split
    · exact hv
    · exact hkb q hq
  · intro p hp
    rcases List.mem_append.mp hp with h | h
    · exact hkb p h
    · rw [List.mem_singleton] at h
      subst h
      exact hv

theorem buildKnowledge_values {P : List Str → Prop}
    (hP : ∀ s, P (tokensOfSymptoms s)) (rows : List (Str × Str)) :
    ∀ p ∈ buildKnowledge rows, P p.2 := by
  unfold buildKnowledge
  suffices hgen : ∀ (rs : List (Str × Str)) (kb : Knowledge), (∀ p ∈ kb, P p.2) →
      ∀ p ∈ rs.foldl (fun kb row => recordSet kb row.1 (tokensOfSymptoms row.2)) kb,
        P p.2 by
    exact hgen rows [] (by simp)
  intro rs
  induction rs with
  | nil =>
    intro kb hkb
    exact hkb
  | cons row rs ih =>
    intro kb hkb
    rw [List.foldl_cons]
    exact ih _ (recordSet_values hkb (hP row.2))

theorem buildKnowledge_tokens_lower (rows : List (Str × Str)) :
    ∀ p ∈ buildKnowledge rows, ∀ t ∈ p.2, ∀ c ∈ t, isUpperCode c = false :=
  @buildKnowledge_values (fun toks => ∀ t ∈ toks, ∀ c ∈ t, isUpperCode c = false)
    (fun s => tokensOfSymptoms_lower s) rows

/-! ### C9: the co-occurrence query -/

theorem bumpCounter_keys {P : Str → Prop} {counter : List (Str × Nat)}
    (hc : ∀ p ∈ counter, P p.1) {t : Str} (ht : P t) :
    ∀ p ∈ bumpCounter counter t, P p.1 := by
  unfold bumpCounter
  split
  · intro p hp
    rcases List.mem_map.mp hp with ⟨q, hq, rfl⟩
    split
    · exact hc q hq
    · exact hc q hq
  · intro p hp
    rcases List.mem_append.mp hp with h | h
    · exact hc p h
    · rw [List.mem_singleton] at h
      subst h
      exact ht

theorem counterStep_keys {P : Str → Prop} {target : Str}
    {counter : List (Str × Nat)} (hc : ∀ p ∈ counter, P p.1) {t : Str}
    (ht : hasSubstr t target = false → P t) :
    ∀ p ∈ counterStep target counter t, P p.1 := by
  unfold counterStep
  split
  · exact hc
  · next hmatch =>
    split
    · exact hc
    · exact bumpCounter_keys hc (ht (by simpa using hmatch))

theorem tokensFold_keys {P : Str → Prop} {target : Str} (toks : List Str)
    (counter : List (Str × Nat)) (hc : ∀ p ∈ counter, P p.1)
    (htoks : ∀ t ∈ toks, hasSubstr t target = false → P t) :
    ∀ p ∈ toks.foldl (counterStep target) counter, P p.1 := by
  induction toks generalizing counter with
  | nil => exact hc
  | cons t ts ih =>
    rw [List.foldl_cons]
    exact ih _ (counterStep_keys hc (htoks t (List.mem_cons_self _ _)))
      (fun x hx => htoks x (List.mem_cons_of_mem _ hx))

theorem condCounterStep_keys {P : Str → Prop} {target : Str}
    {counter : List (Str × Nat)} (hc : ∀ p ∈ counter, P p.1)
    (q : Str × List Str) (hq : ∀ t ∈ q.2, hasSubstr t target = false → P t) :
    ∀ p ∈ condCounterStep target counter q, P p.1 := by
  unfold condCounterStep
  split
  · exact tokensFold_keys q.2 counter hc hq
  · exact hc

theorem kbFold_keys {P : Str → Prop} {target : Str} (kb : Knowledge)
    (counter : List (Str × Nat)) (hc : ∀ p ∈ counter, P p.1)
    (hkb : ∀ q ∈ kb, ∀ t ∈ q.2, hasSubstr t target = false → P t) :
    ∀ p ∈ kb.foldl (condCounterStep target) counter, P p.1 := by
  induction kb generalizing counter with
  | nil => exact hc
  | cons q qs ih =>
    rw [List.foldl_cons]
    exact ih _ (condCounterStep_keys hc q (hkb q (List.mem_cons_self _ _)))
      (fun x hx => hkb x (List.mem_cons_of_mem _ hx))

theorem mem_getCooccurring_keys {P : Str → Prop} {kb : Knowledge} {symptom : Str}
    {limit : Nat} {t : Str} (ht : t ∈ getCooccurring kb symptom limit)
    (hkb : ∀ q ∈ kb, ∀ x ∈ q.2, hasSubstr x (toLowerStr symptom) = false → P x) :
    P t := by
  unfold getCooccurring at ht
  rcases List.mem_map.mp ht with ⟨p, hp, rfl⟩
  have hp2 := List.mem_of_mem_take hp
  have hp3 := (List.mem_insertionSort countGe).mp hp2
  exact kbFold_keys kb [] (by simp) hkb p hp3

/-- C9: the co-occurrence query never returns a token containing the
    lowercased query phrase, in particular never the phrase itself, and it
    returns at most limit tokens. -/
theorem cooccurring_excludes_phrase (rows : List (Str × Str)) (symptom : Str)
    (limit : Nat) :
    (getCooccurring (buildKnowledge rows) symptom limit).length ≤ limit
      ∧ (∀ t ∈ getCooccurring (buildKnowledge rows) symptom limit,
          hasSubstr t (toLowerStr symptom) = false)
      ∧ symptom ∉ getCooccurring (buildKnowledge rows) symptom limit := by
  refine ⟨?_, ?_, ?_⟩
  · unfold getCooccurring
    rw [List.length_map]
    exact List.length_take_le _ _
  · intro t ht
    exact mem_getCooccurring_keys ht (fun _ _ _ _ h => h)
  · intro hmem
    have hnosub : hasSubstr symptom (toLowerStr symptom) = false :=
      mem_getCooccurring_keys hmem (fun _ _ _ _ h => h)
    have htok : ∃ q ∈ buildKnowledge rows, symptom ∈ q.2 :=
      @mem_getCooccurring_keys (fun x => ∃ q ∈ buildKnowledge rows, x ∈ q.2)
        _ _ _ _ hmem (fun q hq x hx _ => ⟨q, hq, hx⟩)
    obtain ⟨q, hq, hx⟩ := htok
    have hlow : ∀ c ∈ symptom, isUpperCode c = false :=
      buildKnowledge_tokens_lower rows q hq symptom hx
    rw [toLowerStr_fixed hlow, hasSubstr_refl symptom] at hnosub
    simp at hnosub

/-- Witness for C9 at the worked-example knowledge base: at most 5 results
    and the queried phrase is absent. -/
theorem cooccurring_excludes_phrase_witness :
    (getCooccurring (buildKnowledge exRows) (strOf "sore throat") 5).length ≤ 5
      ∧ strOf "sore throat" ∉ getCooccurring (buildKnowledge exRows) (strOf "sore throat") 5 :=
  ⟨(cooccurring_excludes_phrase exRows (strOf "sore throat") 5).1,
   (cooccurring_excludes_phrase exRows (strOf "sore throat") 5).2.2⟩

/-! ### C10: structured answers are stored verbatim -/

theorem updateFirst_exists {s : Str} {l : List Evidence}
    (hfound : l.any (fun e => e.name == s) = true) (pr : Presence) :
    ∃ e ∈ updateFirst s pr l, e.name = s := by
  induction l with
  | nil => simp at hfound
  | cons e es ih =>
    unfold updateFirst
    by_cases hc : (e.name == s) = true
    · rw [if_pos hc]
      exact ⟨{ e with presence := pr }, List.mem_cons_self _ _, by simpa using hc⟩
    · rw [if_neg hc]
      have hfound2 : es.any (fun e => e.name == s) = true := by
        rw [List.any_cons, Bool.or_eq_true] at hfound
        rcases hfound with h | h
        · exact absurd h hc
        · exact h
      obtain ⟨x, hx, hxs⟩ := ih hfound2
      exact ⟨x, List.mem_cons_of_mem _ hx, hxs⟩

theorem answerQuestion_name_exists (kb : Knowledge) (st : EngineState) (s : Str)
    (pr : Presence) (mi : Nat) :
    ∃ e ∈ (answerQuestion kb st s pr mi).evidence, e.name = s := by
  rw [answerQuestion_evidence]
  split
  · next hfound => exact updateFirst_exists hfound pr
  · exact ⟨{ name := s, presence := pr, sourceMessageIndex := mi },
      List.mem_append_right _ (List.mem_singleton.mpr rfl), rfl⟩

theorem upper_name_matches_no_token (rows : List (Str × Str)) {s : Str}
    (hs : s.any isUpperCode = true) :
    ∀ p ∈ buildKnowledge rows, ∀ t ∈ p.2, hasSubstr t s = false := by
  rcases List.any_eq_true.mp hs with ⟨c, hcs, hcu⟩
  intro p hp t ht
  exact hasSubstr_eq_false_of_upper (buildKnowledge_tokens_lower rows p hp t ht) hcs hcu

/-- C10: a structured answer stores the symptom name verbatim (untrimmed,
    unlowercased), and because knowledge-base tokens are lowercased at
    construction while the scorer's match is case-sensitive substring
    containment, an evidence record whose name has an uppercase letter
    matches no token and leaves every condition's score, supporting list and
    contradicting list unchanged. -/
theorem structured_answer_exact_name_and_uppercase_inert
    (rows : List (Str × Str)) (st : EngineState) (s : Str) (pr : Presence)
    (mi : Nat) (r : Evidence) (evl : List Evidence) :
    (∃ e ∈ (answerQuestion (buildKnowledge rows) st s pr mi).evidence, e.name = s)
      ∧ (s.any isUpperCode = true → r.name = s →
          ∀ p ∈ buildKnowledge rows, condScore p.2 (evl ++ [r]) = condScore p.2 evl) := by
  refine ⟨answerQuestion_name_exists _ st s pr mi, fun hs hr p hp => ?_⟩
  apply condScore_append_id
  intro t ht
  rw [hr]
  exact upper_name_matches_no_token rows hs p hp t ht

/-- Witness for C10: the name with a leading space and a capital letter is
    stored verbatim and its record contributes nothing to any condition. -/
theorem structured_answer_exact_name_witness :
    (∃ e ∈ (answerQuestion (buildKnowledge exRows) initState (strOf " Fever")
        .present 1).evidence, e.name = strOf " Fever")
      ∧ ∀ p ∈ buildKnowledge exRows,
          condScore p.2 ([] ++ [upEvidence]) = condScore p.2 [] :=
  ⟨(structured_answer_exact_name_and_uppercase_inert exRows initState (strOf " Fever")
      .present 1 upEvidence []).1,
   (structured_answer_exact_name_and_uppercase_inert exRows initState (strOf " Fever")
      .present 1 upEvidence []).2 (by decide) rfl⟩

end APSA
